import Mathlib

/-!
Shallow embedding of the `alisp` interpreter front-end
(`src/ast.rs` and `src/main.rs`).

Strings are modelled as `List Char` (Rust `&str` viewed as its sequence of
`char`s); where the source mixes byte lengths with character counts the
byte length is computed explicitly (`byteLen`).  The compiled regular
expressions of `ast.rs::regexes` are embedded as decidable predicates on
`List Char` whose languages are exactly the languages of the patterns
(Rust `regex` semantics: `.` matches any character except `'\n'`, `\s` is
Unicode white space, anchored by `^`/`$`).  Fallible Rust code returning
`anyhow::Result` is modelled with an `Outcome` type that also has an
explicit constructor for process-aborting control flow (`todo!()` /
`Option::unwrap` on `none`), which the source reaches on some inputs.
-/

namespace Alisp

/-- Unicode white-space test: the set matched by the regex class `\s` and
trimmed by Rust `str::trim` (both use the Unicode `White_Space` property). -/
def isWS (c : Char) : Bool :=
  c == ' ' || c == '\t' || c == '\n' || c == '\r' ||
  c.toNat == 0x0B || c.toNat == 0x0C || c.toNat == 0x85 || c.toNat == 0xA0 ||
  c.toNat == 0x1680 || (0x2000 ≤ c.toNat && c.toNat ≤ 0x200A) ||
  c.toNat == 0x2028 || c.toNat == 0x2029 || c.toNat == 0x202F ||
  c.toNat == 0x205F || c.toNat == 0x3000

/-- Character class `[a-zA-Z_]` (first character of `SYM` / `funcname`). -/
def alphaUnd (c : Char) : Bool := c.isAlpha || c == '_'

/-- Character class `[0-9a-zA-Z_]` (continuation of `SYM` / `funcname`). -/
def alnumUnd (c : Char) : Bool := c.isAlphanum || c == '_'

/-- All decompositions of a list into `prefix ++ suffix`, used to state
concatenation of regex pieces executably. -/
def splits : List Char → List (List Char × List Char)
  | [] => [([], [])]
  | c :: cs => ([], c :: cs) :: (splits cs).map (fun p => (c :: p.1, p.2))

/-- The regex group `([1-9]+||0)`: one or more of `[1-9]`, or the empty
alternative, or a literal `0`. -/
def intGroup (s : List Char) : Bool :=
  (!s.isEmpty && s.all (fun c => '1' ≤ c && c ≤ '9')) || s.isEmpty || s == ['0']

/-- The language of `([1-9]+||0)[0-9]*`, the body shared by the `INT` and
`FLOAT` patterns of `ast.rs::regexes`. -/
def intLead (s : List Char) : Bool :=
  (splits s).any (fun p => intGroup p.1 && p.2.all (·.isDigit))

/-- `regexes::INT`, pattern `^([1-9]+||0)[0-9]*$`. -/
def INT_match (s : List Char) : Bool := intLead s

/-- The trailing `\.[0-9]+` of the `FLOAT` pattern. -/
def dotDigits : List Char → Bool
  | '.' :: ds => !ds.isEmpty && ds.all (·.isDigit)
  | _ => false

/-- `regexes::FLOAT`, pattern `^([1-9]+||0)[0-9]*\.[0-9]+$`. -/
def FLOAT_match (s : List Char) : Bool :=
  (splits s).any (fun p => intLead p.1 && dotDigits p.2)

/-- `regexes::STR`, pattern `^".*"$` (`.` does not match `'\n'`). -/
def STR_match : List Char → Bool
  | '"' :: rest =>
      !rest.isEmpty && rest.getLast? == some '"' && rest.dropLast.all (· != '\n')
  | _ => false

/-- `regexes::LIST`, pattern `^'\(.+\)$` (`.` does not match `'\n'`). -/
def LIST_match : List Char → Bool
  | '\'' :: '(' :: rest =>
      rest.getLast? == some ')' && !rest.dropLast.isEmpty &&
        rest.dropLast.all (· != '\n')
  | _ => false

/-- `regexes::SYM`, pattern `^[a-zA-Z_]+[0-9a-zA-Z_]*$`: since the first
class is contained in the second, the language is exactly the nonempty
strings whose head is `[a-zA-Z_]` and whose tail is `[0-9a-zA-Z_]*`. -/
def SYM_match : List Char → Bool
  | c :: rest => alphaUnd c && rest.all alnumUnd
  | [] => false

/-- `regexes::FUNC`, pattern
`^\(\s*(?P<funcname>[a-zA-Z_]+[0-9a-zA-Z_]*)\s*(?P<args>.*)\)$`.
Returns the two captures `(funcname, args)` when the whole fragment
matches, `none` otherwise.  Greedy matching makes the captures
deterministic: after the opening `(`, `\s*` takes the maximal white-space
run, `funcname` the maximal run of `[0-9a-zA-Z_]` starting with
`[a-zA-Z_]` (its head `c` is itself a `[0-9a-zA-Z_]` character, so the
run is `c` followed by the maximal such run of the tail), the second
`\s*` the maximal white-space run, and `args` everything up to the final
`)` (which must be the last character), with `.` unable to cross a
`'\n'`. -/
def FUNC_captures (s : List Char) : Option (List Char × List Char) :=
  match s with
  | [] => none
  | c0 :: rest =>
    if c0 == '(' then
      match rest.dropWhile isWS with
      | [] => none
      | c :: r1tail =>
        if alphaUnd c then
          let name := c :: r1tail.takeWhile alnumUnd
          let r2 := (r1tail.dropWhile alnumUnd).dropWhile isWS
          if r2.getLast? == some ')' && r2.dropLast.all (· != '\n')
          then some (name, r2.dropLast)
          else none
        else none
    else none

/-- Runtime values, `ast.rs::Val`.  `Float` holds the exact rational value
of the decimal literal; rounding of that value to an `f64` is not part of
any claim and is not modelled.  `ListVal` corresponds to `Val::List`. -/
inductive Val : Type
  | Int (n : Int)
  | Float (q : Rat)
  | Str (s : List Char)
  | ListVal (l : List Val)

/-- AST nodes, `ast.rs::Expr`. -/
inductive Expr : Type
  | Sym (s : List Char)
  | Atom (v : Val)
  | Func (name : List Char) (args : List Expr)

/-- The structured errors produced through `anyhow::Error::msg` (each
carries the fragment or name interpolated into the message) or propagated
with `?` from library parsers. -/
inductive Err : Type
  | MalformedValue (frag : List Char)
  | IntErr (frag : List Char)
  | FloatErr (frag : List Char)
  | CannotReassign (name : List Char)
  | Undefined (name : List Char)

/-- Result of running a fallible piece of the source: a value, a
structured recoverable error, or a process-terminating fault (`todo!()`,
`unwrap` of `None`). -/
inductive Outcome (α : Type) : Type
  | ok (a : α)
  | err (e : Err)
  | panicked

namespace Outcome

def map {α β : Type} (f : α → β) : Outcome α → Outcome β
  | .ok a => .ok (f a)
  | .err e => .err e
  | .panicked => .panicked

end Outcome

/-- UTF-8 length in bytes of one scalar value. -/
def utf8Len (c : Char) : Nat :=
  if c.toNat < 0x80 then 1
  else if c.toNat < 0x800 then 2
  else if c.toNat < 0x10000 then 3
  else 4

/-- Rust `str::len`: length in BYTES (not characters). -/
def byteLen (s : List Char) : Nat := (s.map utf8Len).sum

/-- Numeric value of a digit string, base 10. -/
def digitsVal (ds : List Char) : Nat :=
  ds.foldl (fun acc c => acc * 10 + (c.toNat - '0'.toNat)) 0

/-- `i64::MAX`. -/
def I64_MAX : Nat := 9223372036854775807

/-- Rust `i64::from_str`: optional sign, one or more decimal digits, and
the value must fit in a signed 64-bit integer; every other input is a
`ParseIntError`. -/
def i64_from_str (s : List Char) : Option Int :=
  match s with
  | [] => none
  | '+' :: ds =>
      if !ds.isEmpty && ds.all (·.isDigit) && decide (digitsVal ds ≤ I64_MAX)
      then some (Int.ofNat (digitsVal ds)) else none
  | '-' :: ds =>
      if !ds.isEmpty && ds.all (·.isDigit) && decide (digitsVal ds ≤ I64_MAX + 1)
      then some (-(Int.ofNat (digitsVal ds))) else none
  | ds =>
      if ds.all (·.isDigit) && decide (digitsVal ds ≤ I64_MAX)
      then some (Int.ofNat (digitsVal ds)) else none

/-- The mantissa part of Rust `f64::from_str`’s grammar:
`digits+ | digits+ . digits* | digits* . digits+`, evaluated exactly as a
rational.  Exponents and the `inf`/`NaN` keywords are omitted: the only
call site is guarded by `FLOAT_match`, whose language contains neither. -/
def parseDecimal (s : List Char) : Option Rat :=
  let ip := s.takeWhile (·.isDigit)
  let rest := s.dropWhile (·.isDigit)
  match rest with
  | [] => if ip.isEmpty then none else some ((digitsVal ip : Int) : Rat)
  | '.' :: fp =>
      if fp.all (·.isDigit) && (!ip.isEmpty || !fp.isEmpty)
      then some (((digitsVal ip : Int) : Rat) +
                 ((digitsVal fp : Int) : Rat) / ((10 : Rat) ^ fp.length))
      else none
  | _ => none

/-- Rust `f64::from_str` on the fragments reachable in this program
(see `parseDecimal`): an optional sign then a decimal mantissa. -/
def f64_from_str (s : List Char) : Option Rat :=
  match s with
  | '+' :: r => parseDecimal r
  | '-' :: r => (parseDecimal r).map (fun q => -q)
  | r => parseDecimal r

/-- `ast.rs::try_parse_atom`.  Pattern tests in source order; the `LIST`
branch is `todo!()` in the source, i.e. a panic.  The `STR` branch keeps
the source's byte/char mix: it drops one CHARACTER and then takes
`src.len() - 2` CHARACTERS, where `src.len()` is the BYTE length. -/
def try_parse_atom (s : List Char) : Outcome Val :=
  if INT_match s then
    match i64_from_str s with
    | some n => .ok (.Int n)
    | none => .err (.IntErr s)
  else if FLOAT_match s then
    match f64_from_str s with
    | some q => .ok (.Float q)
    | none => .err (.FloatErr s)
  else if STR_match s then
    .ok (.Str ((s.drop 1).take (byteLen s - 2)))
  else if LIST_match s then
    .panicked
  else
    .err (.MalformedValue s)

/-- Rust `str::split` with a one-character separator: cuts at every
occurrence, keeping empty pieces (`"a  b".split(" ")` is
`["a", "", "b"]`, `"".split(" ")` is `[""]`). -/
def splitOnChar (sep : Char) : List Char → List (List Char)
  | [] => [[]]
  | c :: cs =>
    if c == sep then [] :: splitOnChar sep cs
    else
      match splitOnChar sep cs with
      | [] => [[c]]
      | t :: ts => (c :: t) :: ts

/-- Rust `str::trim`: strip white space from both ends. -/
def trimTok (s : List Char) : List Char :=
  (((s.dropWhile isWS).reverse).dropWhile isWS).reverse

/-- The token pipeline applied to argument text in `try_parse_expr`:
`.split(" ").filter(|s| !s.is_empty()).map(str::trim)`. -/
def tokenize (s : List Char) : List (List Char) :=
  (((splitOnChar ' ' s).filter (fun t => !t.isEmpty)).map trimTok)

/-- Rust `str::split_once` with a one-character pattern: cut at the FIRST
occurrence of `sep`, `none` when absent. -/
def splitOnceChar (sep : Char) : List Char → Option (List Char × List Char)
  | [] => none
  | c :: cs =>
    if c == sep then some ([], cs)
    else (splitOnceChar sep cs).map (fun p => (c :: p.1, p.2))

/-- Rust `str::rsplit_once` with a one-character pattern: cut at the LAST
occurrence of `sep`, `none` when absent. -/
def rsplitOnceChar (sep : Char) (s : List Char) : Option (List Char × List Char) :=
  (splitOnceChar sep s.reverse).map (fun p => (p.2.reverse, p.1.reverse))

/-- Sequencing of the `args.push(try_parse_expr(arg)?)` loops: the first
abnormal outcome (in evaluation order) wins. -/
def seqOutcome {α : Type} : List (Outcome α) → Outcome (List α)
  | [] => .ok []
  | o :: rest =>
    match o with
    | .ok a => (seqOutcome rest).map (fun l => a :: l)
    | .err e => .err e
    | .panicked => .panicked

/-- `ast.rs::try_parse_expr`, written with explicit fuel so that the
definition is structurally recursive and computes by reduction.  Every
recursive call of the source is on a strictly shorter fragment, so any
fuel above the fragment length gives the source's behavior
(`try_parse_expr_fuel_congr`); `try_parse_expr` instantiates the fuel
accordingly.  The `none` arms of the two splits model the source's
`.unwrap()` calls, and fuel `0` is unreachable from `try_parse_expr`. -/
def try_parse_expr_fuel : Nat → List Char → Outcome Expr
  | 0, _ => .panicked
  | fuel + 1, s =>
    if SYM_match s then .ok (.Sym s)
    else
      match FUNC_captures s with
      | some (fname, args) =>
        if (s.drop 1).contains '(' then
          match splitOnceChar '(' args with
          | none => .panicked
          | some (before, nestedAfter) =>
            match rsplitOnceChar ')' nestedAfter with
            | none => .panicked
            | some (nested, after) =>
              (seqOutcome
                (((tokenize before).map (try_parse_expr_fuel fuel))
                  ++ [try_parse_expr_fuel fuel ('(' :: (nested ++ [')']))]
                  ++ ((tokenize after).map (try_parse_expr_fuel fuel)))).map
                (.Func fname)
        else
          (seqOutcome ((tokenize args).map (try_parse_expr_fuel fuel))).map
            (.Func fname)
      | none => (try_parse_atom s).map .Atom

/-- `ast.rs::try_parse_expr`. -/
def try_parse_expr (s : List Char) : Outcome Expr :=
  try_parse_expr_fuel (s.length + 1) s

/-- `main.rs::System`: the symbol environment.  The `HashMap` is modelled
as an association list with unique keys (maintained by `set`, which only
inserts absent keys); only its lookup behavior is observable. -/
structure System : Type where
  mappings : List (List Char × Val)

/-- `System::new()`. -/
def System.new : System := ⟨[]⟩

/-- Whether `sym` is a key of the map. -/
def System.containsName (sys : System) (sym : List Char) : Bool :=
  sys.mappings.any (fun p => p.1 == sym)

/-- The value bound to `sym`, when present. -/
def System.findVal (sys : System) (sym : List Char) : Option Val :=
  (sys.mappings.find? (fun p => p.1 == sym)).map (fun p => p.2)

/-- `main.rs::System::set`, i.e. `HashMap::try_insert`: insert only when
the key is absent, otherwise a reassignment error and no state change.
The mutation of `&mut self` is returned as the second component. -/
def System.set (sys : System) (sym : List Char) (v : Val) :
    Outcome Unit × System :=
  if sys.containsName sym then (.err (.CannotReassign sym), sys)
  else (.ok (), ⟨sys.mappings ++ [(sym, v)]⟩)

/-- `main.rs::System::get`: a clone of the bound value, or an
undefined-name error (`&self`, so no state component). -/
def System.get (sys : System) (sym : List Char) : Outcome Val :=
  match sys.findVal sym with
  | some v => .ok v
  | none => .err (.Undefined sym)

/-- `main.rs::System::eval`.  The catch-all arm (reached exactly by
`Expr::Func`) is `todo!()` in the source.  The `&mut self` state is
returned explicitly; no arm mutates it. -/
def System.eval (sys : System) (e : Expr) : Outcome Val × System :=
  match e with
  | .Atom v => (.ok v, sys)
  | .Sym s => (sys.get s, sys)
  | .Func _ _ => (.panicked, sys)

/-- One operation of an evaluation session against the environment. -/
inductive Op : Type
  | bind (n : List Char) (v : Val)
  | lookup (n : List Char)
  | evalE (e : Expr)

/-- State transition of one operation (results are discarded; `lookup`
takes `&self` and cannot change state). -/
def System.step (sys : System) : Op → System
  | .bind n v => (sys.set n v).2
  | .lookup _ => sys
  | .evalE e => (sys.eval e).2

/-- Run a sequence of operations, threading the environment. -/
def System.runOps (sys : System) : List Op → System
  | [] => sys
  | op :: ops => (sys.step op).runOps ops

/-! ### Lemmas about the regex languages -/

theorem splits_self_mem (s : List Char) : (([], s) : List Char × List Char) ∈ splits s := by
  cases s <;> simp [splits]

theorem splits_mem_append {s : List Char} {p : List Char × List Char}
    (h : p ∈ splits s) : s = p.1 ++ p.2 := by
  induction s generalizing p with
  | nil => simp [splits] at h; simp [h]
  | cons c cs ih =>
    simp only [splits, List.mem_cons, List.mem_map] at h
    rcases h with h | ⟨q, hq, rfl⟩
    · simp [h]
    · simpa using congrArg (c :: ·) (ih hq)

theorem digit_of_one_nine {c : Char} (h : (decide ('1' ≤ c) && decide (c ≤ '9')) = true) :
    c.isDigit = true := by
  simp only [Bool.and_eq_true, decide_eq_true_eq] at h
  simp only [Char.isDigit, Bool.and_eq_true, decide_eq_true_eq, ge_iff_le]
  rcases h with ⟨h1, h2⟩
  rw [Char.le_def] at h1 h2
  constructor
  · exact le_trans (show ('0' : Char) ≤ '1' by decide) h1
  · exact h2

theorem intGroup_all_digit {t : List Char} (h : intGroup t = true) :
    t.all (·.isDigit) = true := by
  unfold intGroup at h
  simp only [Bool.or_eq_true, Bool.and_eq_true] at h
  rcases h with (⟨-, hall⟩ | hemp) | heq
  · rw [List.all_eq_true] at hall ⊢
    intro c hc
    exact digit_of_one_nine (hall c hc)
  · rw [List.isEmpty_iff] at hemp
    subst hemp; rfl
  · rw [beq_iff_eq] at heq
    subst heq; rfl

theorem intLead_eq_all (s : List Char) : intLead s = s.all (·.isDigit) := by
  rcases hall : s.all (·.isDigit) with _ | _
  · rcases hlead : intLead s with _ | _
    · rfl
    · exfalso
      unfold intLead at hlead
      rw [List.any_eq_true] at hlead
      obtain ⟨p, hp, hcond⟩ := hlead
      rw [Bool.and_eq_true] at hcond
      have hs := splits_mem_append hp
      have h1 := intGroup_all_digit hcond.1
      have h2 := hcond.2
      rw [List.all_eq_true] at h1 h2
      rw [Bool.eq_false_iff] at hall
      apply hall
      rw [List.all_eq_true]
      intro c hc
      rw [hs, List.mem_append] at hc
      rcases hc with hc | hc
      · exact h1 c hc
      · exact h2 c hc
  · unfold intLead
    rw [List.any_eq_true]
    refine ⟨([], s), splits_self_mem s, ?_⟩
    simp [intGroup, hall]

theorem INT_match_eq_all (s : List Char) : INT_match s = s.all (·.isDigit) :=
  intLead_eq_all s

theorem FLOAT_match_dot {ds : List Char} (hne : ds ≠ [])
    (hd : ds.all (·.isDigit) = true) : FLOAT_match ('.' :: ds) = true := by
  unfold FLOAT_match
  rw [List.any_eq_true]
  refine ⟨([], '.' :: ds), splits_self_mem _, ?_⟩
  simp only [Bool.and_eq_true]
  constructor
  · rw [intLead_eq_all]; rfl
  · simp [dotDigits, hd, hne]

/-! ### Lemmas about the splitting helpers -/

theorem splitOnceChar_some_iff {sep : Char} {s a b : List Char} :
    splitOnceChar sep s = some (a, b) ↔ s = a ++ sep :: b ∧ sep ∉ a := by
  induction s generalizing a with
  | nil =>
    simp only [splitOnceChar]
    constructor
    · intro h; cases h
    · rintro ⟨h, -⟩; exact absurd h (by simp)
  | cons c cs ih =>
    simp only [splitOnceChar]
    by_cases hc : c = sep
    · subst hc
      rw [if_pos (by simp)]
      constructor
      · intro h
        obtain ⟨rfl, rfl⟩ : a = [] ∧ b = cs := by
          have := Option.some.inj h
          exact ⟨(Prod.mk.injEq _ _ _ _ ▸ this).1.symm, (Prod.mk.injEq _ _ _ _ ▸ this).2.symm⟩
        exact ⟨rfl, by simp⟩
      · rintro ⟨heq, hna⟩
        cases a with
        | nil => simp at heq; rw [heq]
        | cons x xs =>
          exfalso
          have : c = x := by simpa using congrArg (·.headD c) heq
          exact hna (this ▸ List.mem_cons_self x xs)
    · rw [if_neg (by simpa using hc)]
      constructor
      · intro h
        rcases Option.map_eq_some'.mp h with ⟨⟨a', b'⟩, hsplit, heq⟩
        have ha : c :: a' = a := (Prod.mk.injEq _ _ _ _ ▸ heq).1
        have hb : b' = b := (Prod.mk.injEq _ _ _ _ ▸ heq).2
        subst ha; subst hb
        rcases ih.mp hsplit with ⟨rfl, hna⟩
        refine ⟨rfl, ?_⟩
        simp only [List.mem_cons, not_or]
        exact ⟨fun h => hc h.symm, hna⟩
      · rintro ⟨heq, hna⟩
        cases a with
        | nil =>
          exfalso
          exact hc (by simpa using congrArg (·.headD c) heq)
        | cons x xs =>
          have hcx : c = x := by simpa using congrArg (·.headD c) heq
          subst hcx
          have hcs : cs = xs ++ sep :: b := by simpa using congrArg List.tail heq
          simp only [List.mem_cons, not_or] at hna
          rw [ih.mpr ⟨hcs, hna.2⟩]
          rfl

theorem splitOnceChar_none_iff {sep : Char} {s : List Char} :
    splitOnceChar sep s = none ↔ sep ∉ s := by
  induction s with
  | nil => simp [splitOnceChar]
  | cons c cs ih =>
    simp only [splitOnceChar]
    by_cases hc : c = sep
    · subst hc; simp
    · rw [if_neg (by simpa using hc), Option.map_eq_none', ih]
      simp only [List.mem_cons, not_or]
      constructor
      · intro h; exact ⟨fun he => hc he.symm, h⟩
      · rintro ⟨-, h⟩; exact h

theorem rsplitOnceChar_some_iff {sep : Char} {s a b : List Char} :
    rsplitOnceChar sep s = some (a, b) ↔ s = a ++ sep :: b ∧ sep ∉ b := by
  unfold rsplitOnceChar
  constructor
  · intro h
    rcases Option.map_eq_some'.mp h with ⟨⟨x, y⟩, hs, heq⟩
    have ha : y.reverse = a := (Prod.mk.injEq _ _ _ _ ▸ heq).1
    have hb : x.reverse = b := (Prod.mk.injEq _ _ _ _ ▸ heq).2
    subst ha; subst hb
    rcases splitOnceChar_some_iff.mp hs with ⟨hrev, hnx⟩
    constructor
    · have := congrArg List.reverse hrev
      simp only [List.reverse_reverse, List.reverse_append, List.reverse_cons] at this
      simpa [List.append_assoc] using this
    · simpa using hnx
  · rintro ⟨rfl, hnb⟩
    have hrev : (a ++ sep :: b).reverse = b.reverse ++ sep :: a.reverse := by
      simp [List.reverse_append, List.reverse_cons, List.append_assoc]
    rw [hrev, splitOnceChar_some_iff.mpr ⟨rfl, by simpa using hnb⟩]
    simp

theorem rsplitOnceChar_none_iff {sep : Char} {s : List Char} :
    rsplitOnceChar sep s = none ↔ sep ∉ s := by
  unfold rsplitOnceChar
  rw [Option.map_eq_none', splitOnceChar_none_iff]
  simp

theorem splitOnceChar_some_length {sep : Char} {s a b : List Char}
    (h : splitOnceChar sep s = some (a, b)) : a.length + b.length + 1 = s.length := by
  rcases splitOnceChar_some_iff.mp h with ⟨rfl, -⟩
  simp [List.length_append]
  omega

theorem rsplitOnceChar_some_length {sep : Char} {s a b : List Char}
    (h : rsplitOnceChar sep s = some (a, b)) : a.length + b.length + 1 = s.length := by
  rcases rsplitOnceChar_some_iff.mp h with ⟨rfl, -⟩
  simp [List.length_append]
  omega

theorem splitOnChar_ne_nil (sep : Char) (s : List Char) : splitOnChar sep s ≠ [] := by
  cases s with
  | nil => simp [splitOnChar]
  | cons c cs =>
    simp only [splitOnChar]
    by_cases hc : (c == sep) = true
    · simp [hc]
    · rw [if_neg hc]
      cases splitOnChar sep cs <;> simp

theorem splitOnChar_mem_length {sep : Char} {s t : List Char}
    (h : t ∈ splitOnChar sep s) : t.length ≤ s.length := by
  induction s generalizing t with
  | nil =>
    simp [splitOnChar] at h
    simp [h]
  | cons c cs ih =>
    simp only [splitOnChar] at h
    by_cases hc : (c == sep) = true
    · rw [if_pos hc] at h
      rcases List.mem_cons.mp h with rfl | hmem
      · simp
      · exact le_trans (ih hmem) (by simp)
    · rw [if_neg hc] at h
      cases hsp : splitOnChar sep cs with
      | nil => exact absurd hsp (splitOnChar_ne_nil sep cs)
      | cons u us =>
        rw [hsp] at h
        rcases List.mem_cons.mp h with rfl | hmem
        · have hu : u ∈ splitOnChar sep cs := by rw [hsp]; exact List.mem_cons_self u us
          have := ih hu
          simp only [List.length_cons]
          omega
        · have ht : t ∈ splitOnChar sep cs := by rw [hsp]; exact List.mem_cons_of_mem u hmem
          exact le_trans (ih ht) (by simp)

theorem trimTok_length (s : List Char) : (trimTok s).length ≤ s.length := by
  unfold trimTok
  rw [List.length_reverse]
  calc (((s.dropWhile isWS).reverse).dropWhile isWS).length
      ≤ ((s.dropWhile isWS).reverse).length := (List.dropWhile_sublist isWS).length_le
    _ = (s.dropWhile isWS).length := List.length_reverse _
    _ ≤ s.length := (List.dropWhile_sublist isWS).length_le

theorem tokenize_mem_length {s t : List Char} (h : t ∈ tokenize s) :
    t.length ≤ s.length := by
  unfold tokenize at h
  rcases List.mem_map.mp h with ⟨u, hu, rfl⟩
  have huS : u ∈ splitOnChar ' ' s := List.mem_of_mem_filter hu
  exact le_trans (trimTok_length u) (splitOnChar_mem_length huS)

/-! ### Lemmas about `FUNC_captures` -/

theorem FUNC_captures_len {s n args : List Char}
    (h : FUNC_captures s = some (n, args)) : args.length + 3 ≤ s.length := by
  cases s with
  | nil => simp [FUNC_captures] at h
  | cons c0 rest =>
    simp only [FUNC_captures] at h
    split at h
    · split at h
      · cases h
      · next c r1tail hr1 =>
        split at h
        · split at h
          · next hcond =>
            have hargs : args = ((r1tail.dropWhile alnumUnd).dropWhile isWS).dropLast := by
              have := Option.some.inj h
              exact ((Prod.mk.injEq _ _ _ _ ▸ this).2).symm
            have hne : ((r1tail.dropWhile alnumUnd).dropWhile isWS) ≠ [] := by
              intro habs
              rw [Bool.and_eq_true] at hcond
              rw [habs] at hcond
              exact absurd hcond.1 (by simp)
            have h1 : ((r1tail.dropWhile alnumUnd).dropWhile isWS).length ≤ r1tail.length :=
              le_trans ((List.dropWhile_sublist isWS).length_le)
                ((List.dropWhile_sublist alnumUnd).length_le)
            have h2 : args.length =
                ((r1tail.dropWhile alnumUnd).dropWhile isWS).length - 1 := by
              rw [hargs, List.length_dropLast]
            have h3 : 1 ≤ ((r1tail.dropWhile alnumUnd).dropWhile isWS).length :=
              List.length_pos.mpr hne
            have h4 : (rest.dropWhile isWS).length ≤ rest.length :=
              (List.dropWhile_sublist isWS).length_le
            rw [hr1] at h4
            simp only [List.length_cons] at h4 ⊢
            omega
          · cases h
        · cases h
    · cases h

theorem FUNC_captures_not_SYM {s : List Char} {p : List Char × List Char}
    (h : FUNC_captures s = some p) : SYM_match s = false := by
  cases s with
  | nil => simp [FUNC_captures] at h
  | cons c0 rest =>
    simp only [FUNC_captures] at h
    split at h
    · next hc0 =>
      rw [beq_iff_eq] at hc0
      subst hc0
      simp [SYM_match, alphaUnd]
    · cases h

/-! ### Every recursive call of `try_parse_expr` is on a shorter fragment -/

theorem tok_lt_of_args {s n args t : List Char}
    (hf : FUNC_captures s = some (n, args)) (ht : t ∈ tokenize args) :
    t.length < s.length := by
  have h1 := tokenize_mem_length ht
  have h2 := FUNC_captures_len hf
  omega

theorem tok_lt_of_before {s n args before na t : List Char}
    (hf : FUNC_captures s = some (n, args))
    (h2 : splitOnceChar '(' args = some (before, na)) (ht : t ∈ tokenize before) :
    t.length < s.length := by
  have ha := tokenize_mem_length ht
  have hb := splitOnceChar_some_length h2
  have hc := FUNC_captures_len hf
  omega

theorem tok_lt_of_after {s n args before na nested after t : List Char}
    (hf : FUNC_captures s = some (n, args))
    (h2 : splitOnceChar '(' args = some (before, na))
    (h3 : rsplitOnceChar ')' na = some (nested, after)) (ht : t ∈ tokenize after) :
    t.length < s.length := by
  have ha := tokenize_mem_length ht
  have hb := splitOnceChar_some_length h2
  have hb2 := rsplitOnceChar_some_length h3
  have hc := FUNC_captures_len hf
  omega

theorem nested_lt {s n args before na nested after : List Char}
    (hf : FUNC_captures s = some (n, args))
    (h2 : splitOnceChar '(' args = some (before, na))
    (h3 : rsplitOnceChar ')' na = some (nested, after)) :
    ('(' :: (nested ++ [')'])).length < s.length := by
  have hb := splitOnceChar_some_length h2
  have hb2 := rsplitOnceChar_some_length h3
  have hc := FUNC_captures_len hf
  simp only [List.length_cons, List.length_append]
  simp only [List.length_cons, List.length_nil]
  omega

/-- Any fuel above the fragment length produces the same result: the fuel
is an artifact of the embedding, not of the source. -/
theorem try_parse_expr_fuel_congr :
    ∀ (f g : Nat) (s : List Char), s.length < f → s.length < g →
      try_parse_expr_fuel f s = try_parse_expr_fuel g s := by
  intro f
  induction f with
  | zero => intro g s hf _; exact absurd hf (Nat.not_lt_zero _)
  | succ f ih =>
    intro g s hf hg
    cases g with
    | zero => exact absurd hg (Nat.not_lt_zero _)
    | succ g =>
      simp only [try_parse_expr_fuel]
      by_cases hsym : SYM_match s = true
      · rw [if_pos hsym, if_pos hsym]
      · rw [if_neg hsym, if_neg hsym]
        cases hfc : FUNC_captures s with
        | none => simp only [hfc]
        | some p =>
          obtain ⟨n, args⟩ := p
          simp only [hfc]
          by_cases hcont : ((s.drop 1).contains '(') = true
          · rw [if_pos hcont, if_pos hcont]
            cases hsp : splitOnceChar '(' args with
            | none => simp only [hsp]
            | some q =>
              obtain ⟨before, na⟩ := q
              simp only [hsp]
              cases hrs : rsplitOnceChar ')' na with
              | none => simp only [hrs]
              | some r =>
                obtain ⟨nested, after⟩ := r
                simp only [hrs]
                have hbef : ∀ t ∈ tokenize before,
                    try_parse_expr_fuel f t = try_parse_expr_fuel g t := by
                  intro t ht
                  have hlt := tok_lt_of_before hfc hsp ht
                  exact ih g t (by omega) (by omega)
                have haft : ∀ t ∈ tokenize after,
                    try_parse_expr_fuel f t = try_parse_expr_fuel g t := by
                  intro t ht
                  have hlt := tok_lt_of_after hfc hsp hrs ht
                  exact ih g t (by omega) (by omega)
                have hnst := nested_lt hfc hsp hrs
                rw [List.map_congr_left hbef, List.map_congr_left haft,
                  ih g ('(' :: (nested ++ [')'])) (by omega) (by omega)]
          · rw [if_neg hcont, if_neg hcont]
            have harg : ∀ t ∈ tokenize args,
                try_parse_expr_fuel f t = try_parse_expr_fuel g t := by
              intro t ht
              have hlt := tok_lt_of_args hfc ht
              exact ih g t (by omega) (by omega)
            rw [List.map_congr_left harg]

/-! ### Branch equations of `try_parse_expr` -/

theorem try_parse_expr_sym {s : List Char} (h : SYM_match s = true) :
    try_parse_expr s = .ok (.Sym s) := by
  unfold try_parse_expr
  simp [try_parse_expr_fuel, h]

theorem try_parse_expr_atom {s : List Char} (h1 : SYM_match s = false)
    (h2 : FUNC_captures s = none) :
    try_parse_expr s = (try_parse_atom s).map .Atom := by
  unfold try_parse_expr
  simp [try_parse_expr_fuel, h1, h2]

theorem try_parse_expr_flat {s n args : List Char}
    (hf : FUNC_captures s = some (n, args))
    (hc : ((s.drop 1).contains '(') = false) :
    try_parse_expr s = (seqOutcome ((tokenize args).map try_parse_expr)).map (.Func n) := by
  conv_lhs => unfold try_parse_expr try_parse_expr_fuel
  rw [FUNC_captures_not_SYM hf]
  simp only [Bool.false_eq_true, if_false, hf, hc]
  have harg : ∀ t ∈ tokenize args,
      try_parse_expr_fuel s.length t = try_parse_expr_fuel (t.length + 1) t := by
    intro t ht
    have hlt := tok_lt_of_args hf ht
    exact try_parse_expr_fuel_congr _ _ t (by omega) (by omega)
  rw [List.map_congr_left harg]
  rfl

theorem try_parse_expr_nested {s n args before na nested after : List Char}
    (hf : FUNC_captures s = some (n, args))
    (hc : ((s.drop 1).contains '(') = true)
    (hsp : splitOnceChar '(' args = some (before, na))
    (hrs : rsplitOnceChar ')' na = some (nested, after)) :
    try_parse_expr s =
      (seqOutcome (((tokenize before).map try_parse_expr)
        ++ [try_parse_expr ('(' :: (nested ++ [')']))]
        ++ ((tokenize after).map try_parse_expr))).map (.Func n) := by
  conv_lhs => unfold try_parse_expr try_parse_expr_fuel
  rw [FUNC_captures_not_SYM hf]
  simp only [Bool.false_eq_true, if_false, hf, hc, if_true, hsp, hrs]
  have hbef : ∀ t ∈ tokenize before,
      try_parse_expr_fuel s.length t = try_parse_expr_fuel (t.length + 1) t := by
    intro t ht
    have hlt := tok_lt_of_before hf hsp ht
    exact try_parse_expr_fuel_congr _ _ t (by omega) (by omega)
  have haft : ∀ t ∈ tokenize after,
      try_parse_expr_fuel s.length t = try_parse_expr_fuel (t.length + 1) t := by
    intro t ht
    have hlt := tok_lt_of_after hf hsp hrs ht
    exact try_parse_expr_fuel_congr _ _ t (by omega) (by omega)
  have hnst := nested_lt hf hsp hrs
  rw [List.map_congr_left hbef, List.map_congr_left haft,
    try_parse_expr_fuel_congr s.length (('(' :: (nested ++ [')'])).length + 1)
      ('(' :: (nested ++ [')'])) (by omega) (by omega)]
  rfl

theorem try_parse_expr_panic_nosplit {s n args : List Char}
    (hf : FUNC_captures s = some (n, args))
    (hc : ((s.drop 1).contains '(') = true)
    (hsp : splitOnceChar '(' args = none) :
    try_parse_expr s = .panicked := by
  unfold try_parse_expr
  simp only [try_parse_expr_fuel]
  rw [FUNC_captures_not_SYM hf]
  simp only [Bool.false_eq_true, if_false, hf, hc, if_true, hsp]

theorem try_parse_expr_panic_norsplit {s n args before na : List Char}
    (hf : FUNC_captures s = some (n, args))
    (hc : ((s.drop 1).contains '(') = true)
    (hsp : splitOnceChar '(' args = some (before, na))
    (hrs : rsplitOnceChar ')' na = none) :
    try_parse_expr s = .panicked := by
  unfold try_parse_expr
  simp only [try_parse_expr_fuel]
  rw [FUNC_captures_not_SYM hf]
  simp only [Bool.false_eq_true, if_false, hf, hc, if_true, hsp, hrs]

/-! ### Lemmas about the environment -/

theorem eval_state (sys : System) (e : Expr) : (sys.eval e).2 = sys := by
  cases e <;> rfl

theorem get_ok_iff {sys : System} {n : List Char} {v : Val} :
    sys.get n = .ok v ↔ sys.findVal n = some v := by
  unfold System.get
  cases h : sys.findVal n <;> simp

theorem set_present {sys : System} {sym : List Char} (v : Val)
    (h : sys.containsName sym = true) :
    sys.set sym v = (.err (.CannotReassign sym), sys) := by
  simp [System.set, h]

theorem set_absent {sys : System} {sym : List Char} (v : Val)
    (h : sys.containsName sym = false) :
    sys.set sym v = (.ok (), ⟨sys.mappings ++ [(sym, v)]⟩) := by
  simp [System.set, h]

theorem find?_eq_none_of_not_contains {sys : System} {sym : List Char}
    (h : sys.containsName sym = false) :
    sys.mappings.find? (fun p => p.1 == sym) = none := by
  rw [List.find?_eq_none]
  intro x hx
  unfold System.containsName at h
  rw [Bool.eq_false_iff] at h
  intro habs
  exact h (List.any_eq_true.mpr ⟨x, hx, habs⟩)

theorem findVal_append_new {sys : System} {sym : List Char} (v : Val)
    (h : sys.containsName sym = false) :
    System.findVal ⟨sys.mappings ++ [(sym, v)]⟩ sym = some v := by
  unfold System.findVal
  rw [List.find?_append, find?_eq_none_of_not_contains h]
  simp [List.find?]

theorem findVal_append_other {sys : System} {sym m : List Char} (v : Val)
    (h : m ≠ sym) :
    System.findVal ⟨sys.mappings ++ [(sym, v)]⟩ m = sys.findVal m := by
  unfold System.findVal
  rw [List.find?_append]
  have : List.find? (fun p => p.1 == m) [(sym, v)] = none := by
    rw [List.find?_eq_none]
    intro x hx
    rw [List.mem_singleton] at hx
    subst hx
    simp only [beq_iff_eq]
    exact fun habs => h habs.symm
  rw [this]
  cases List.find? (fun p => p.1 == m) sys.mappings <;> rfl

theorem findVal_step_persist {sys : System} {n : List Char} {v : Val} (op : Op)
    (h : sys.findVal n = some v) : (sys.step op).findVal n = some v := by
  cases op with
  | lookup m => exact h
  | evalE e => rw [System.step, eval_state]; exact h
  | bind m w =>
    show ((sys.set m w).2).findVal n = some v
    cases hc : sys.containsName m with
    | true => rw [set_present w hc]; exact h
    | false =>
      rw [set_absent w hc]
      by_cases hnm : n = m
      · exfalso
        subst hnm
        unfold System.containsName at hc
        rw [Bool.eq_false_iff] at hc
        apply hc
        rw [List.any_eq_true]
        unfold System.findVal at h
        rcases hfind : sys.mappings.find? (fun p => p.1 == n) with _ | q
        · rw [hfind] at h; cases h
        · have hq := List.find?_some hfind
          exact ⟨q, List.mem_of_find?_eq_some hfind, hq⟩
      · show (System.mk (sys.mappings ++ [(m, w)])).findVal n = some v
        rw [findVal_append_other w hnm]
        exact h

theorem runOps_append (sys : System) (a b : List Op) :
    sys.runOps (a ++ b) = (sys.runOps a).runOps b := by
  induction a generalizing sys with
  | nil => rfl
  | cons op ops ih => simp only [List.cons_append, System.runOps]; exact ih _

theorem findVal_runOps_persist {sys : System} {n : List Char} {v : Val}
    (ops : List Op) (h : sys.findVal n = some v) :
    (sys.runOps ops).findVal n = some v := by
  induction ops generalizing sys with
  | nil => exact h
  | cons op ops ih => exact ih (findVal_step_persist op h)

/-! ### Lemmas about `try_parse_atom` -/

theorem i64_from_str_digits {d : List Char} (hne : d ≠ [])
    (hd : d.all (·.isDigit) = true) :
    i64_from_str d =
      if digitsVal d ≤ I64_MAX then some (Int.ofNat (digitsVal d)) else none := by
  cases d with
  | nil => exact absurd rfl hne
  | cons c ds =>
    have hc : c.isDigit = true := by
      rw [List.all_cons, Bool.and_eq_true] at hd
      exact hd.1
    unfold i64_from_str
    split
    · next heq => exact absurd heq (by simp)
    · next heq =>
      exfalso
      have : c = '+' := (List.cons.injEq _ _ _ _ ▸ heq).1
      rw [this] at hc
      exact absurd hc (by decide)
    · next heq =>
      exfalso
      have : c = '-' := (List.cons.injEq _ _ _ _ ▸ heq).1
      rw [this] at hc
      exact absurd hc (by decide)
    · simp only [hd, Bool.true_and, decide_eq_true_eq]

theorem LIST_shape {s : List Char} (h : LIST_match s = true) :
    ∃ rest, s = '\'' :: '(' :: rest := by
  unfold LIST_match at h
  split at h
  · next rest => exact ⟨rest, rfl⟩
  · cases h

theorem INT_match_head_false {c : Char} (t : List Char) (hd : c.isDigit = false) :
    INT_match (c :: t) = false := by
  rw [INT_match_eq_all, List.all_cons, hd]
  rfl

theorem FLOAT_match_head_false {c : Char} (t : List Char) (hd : c.isDigit = false)
    (hdot : c ≠ '.') : FLOAT_match (c :: t) = false := by
  rcases h : FLOAT_match (c :: t) with _ | _
  · rfl
  · exfalso
    unfold FLOAT_match at h
    rw [List.any_eq_true] at h
    obtain ⟨p, hp, hcond⟩ := h
    rw [Bool.and_eq_true] at hcond
    have hs := splits_mem_append hp
    have hlead := hcond.1
    rw [intLead_eq_all] at hlead
    cases hp1 : p.1 with
    | nil =>
      rw [hp1] at hs
      simp only [List.nil_append] at hs
      have hdd := hcond.2
      rw [← hs] at hdd
      unfold dotDigits at hdd
      split at hdd
      · next heq =>
        exact hdot (List.cons.injEq _ _ _ _ ▸ heq).1
      · cases hdd
    | cons x xs =>
      rw [hp1] at hs
      have hcx : c = x := by simpa using congrArg (·.headD c) hs
      rw [hp1, List.all_cons, Bool.and_eq_true] at hlead
      rw [← hcx] at hlead
      rw [hlead.1] at hd
      cases hd

theorem STR_match_head_false {c : Char} (t : List Char) (h : c ≠ '"') :
    STR_match (c :: t) = false := by
  unfold STR_match
  split
  · next heq =>
    exact absurd (List.cons.injEq _ _ _ _ ▸ heq).1 h
  · rfl

theorem try_parse_atom_panicked_iff (s : List Char) :
    try_parse_atom s = .panicked ↔ LIST_match s = true := by
  constructor
  · intro h
    unfold try_parse_atom at h
    by_cases h1 : INT_match s = true
    · rw [if_pos h1] at h
      cases hi : i64_from_str s <;> rw [hi] at h <;> cases h
    · rw [if_neg h1] at h
      by_cases h2 : FLOAT_match s = true
      · rw [if_pos h2] at h
        cases hf : f64_from_str s <;> rw [hf] at h <;> cases h
      · rw [if_neg h2] at h
        by_cases h3 : STR_match s = true
        · rw [if_pos h3] at h; cases h
        · rw [if_neg h3] at h
          by_cases h4 : LIST_match s = true
          · exact h4
          · rw [if_neg h4] at h; cases h
  · intro hL
    obtain ⟨rest, rfl⟩ := LIST_shape hL
    have h1 : INT_match ('\'' :: '(' :: rest) = false :=
      INT_match_head_false _ (by decide)
    have h2 : FLOAT_match ('\'' :: '(' :: rest) = false :=
      FLOAT_match_head_false _ (by decide) (by decide)
    have h3 : STR_match ('\'' :: '(' :: rest) = false :=
      STR_match_head_false _ (by decide)
    unfold try_parse_atom
    rw [h1, h2, h3, hL]
    rfl

theorem get_ne_panicked (sys : System) (sym : List Char) : sys.get sym ≠ .panicked := by
  unfold System.get
  cases h : sys.findVal sym <;> simp

theorem set_fst_ne_panicked (sys : System) (sym : List Char) (v : Val) :
    (sys.set sym v).1 ≠ .panicked := by
  unfold System.set
  cases h : sys.containsName sym <;> simp

theorem eval_fst_panicked_iff (sys : System) (e : Expr) :
    (sys.eval e).1 = .panicked ↔ ∃ n a, e = .Func n a := by
  cases e with
  | Atom v => simp [System.eval]
  | Sym s => simp [System.eval, get_ne_panicked sys s]
  | Func n a => simp [System.eval]

/-! ### The claims -/

/-- C1: for every call fragment whose argument text contains a nested `(`,
`try_parse_expr` splits the argument text at its FIRST `(` into `before`
and `nestedAfter`, splits `nestedAfter` at its LAST `)` into `nested` and
`after`, parses `before`'s tokens as sibling expressions, recursively
parses `(` ++ nested ++ `)` as one nested call, then `after`'s tokens,
concatenating the arguments in that order; in particular
`(f a (g b))` parses to Call("f", [Symbol("a"), Call("g", [Symbol("b")])]). -/
theorem claim_C1 :
    (∀ s n args before nestedAfter nested after : List Char,
      FUNC_captures s = some (n, args) →
      ((s.drop 1).contains '(') = true →
      args = before ++ '(' :: nestedAfter → '(' ∉ before →
      nestedAfter = nested ++ ')' :: after → ')' ∉ after →
      try_parse_expr s =
        (seqOutcome (((tokenize before).map try_parse_expr)
          ++ [try_parse_expr ('(' :: (nested ++ [')']))]
          ++ ((tokenize after).map try_parse_expr))).map (.Func n))
    ∧ try_parse_expr ("(f a (g b))".toList) =
        .ok (.Func ("f".toList) [.Sym ("a".toList), .Func ("g".toList) [.Sym ("b".toList)]]) := by
  constructor
  · intro s n args before nestedAfter nested after hf hc hsplit hnb hrsplit hna
    exact try_parse_expr_nested hf hc
      (splitOnceChar_some_iff.mpr ⟨hsplit, hnb⟩)
      (rsplitOnceChar_some_iff.mpr ⟨hrsplit, hna⟩)
  · rfl

/-- Witness for C1: the general decomposition applied to `(f a (g b))`
itself, with `before = "a "`, `nested = "g b"`, `after = ""`. -/
theorem claim_C1_witness :
    FUNC_captures ("(f a (g b))".toList) = some ("f".toList, "a (g b)".toList) ∧
    try_parse_expr ("(f a (g b))".toList) =
      (seqOutcome (((tokenize ("a ".toList)).map try_parse_expr)
        ++ [try_parse_expr ('(' :: ("g b".toList ++ [')']))]
        ++ ((tokenize ([] : List Char)).map try_parse_expr))).map (.Func ("f".toList)) :=
  ⟨by rfl,
   claim_C1.1 ("(f a (g b))".toList) ("f".toList) ("a (g b)".toList)
     ("a ".toList) ("g b)".toList) ("g b".toList) ([] : List Char)
     (by rfl) (by rfl) (by rfl) (by decide) (by rfl) (by decide)⟩

/-- C2 (amended): parse and evaluation failures are recoverable structured
results on the implemented paths, EXCEPT that the source panics at three
sites, which the embedding makes precise: atom parsing panics exactly on
fragments matching the list-literal pattern (`todo!()`); call parsing
panics when the argument text contains `(` but the text after the first
`(` contains no `)` (`rsplit_once(...).unwrap()`), and propagates panics
of recursive sub-parses; evaluation panics exactly on Call expressions
(`todo!()`).  Binding, lookup, symbol parsing and non-list atom parsing
never panic. -/
theorem claim_C2 :
    (∀ s : List Char, try_parse_atom s = .panicked ↔ LIST_match s = true) ∧
    (∀ (sys : System) (e : Expr), (sys.eval e).1 = .panicked ↔ ∃ n a, e = .Func n a) ∧
    (∀ (sys : System) (sym : List Char) (v : Val), (sys.set sym v).1 ≠ .panicked) ∧
    (∀ (sys : System) (sym : List Char), sys.get sym ≠ .panicked) ∧
    (∀ s : List Char, SYM_match s = true → try_parse_expr s = .ok (.Sym s)) ∧
    (∀ s : List Char, SYM_match s = false → FUNC_captures s = none →
      try_parse_expr s = (try_parse_atom s).map .Atom) ∧
    (∀ s n args before na : List Char, FUNC_captures s = some (n, args) →
      ((s.drop 1).contains '(') = true →
      args = before ++ '(' :: na → '(' ∉ before → ')' ∉ na →
      try_parse_expr s = .panicked) := by
  refine ⟨try_parse_atom_panicked_iff, eval_fst_panicked_iff,
    set_fst_ne_panicked, get_ne_panicked,
    fun s h => try_parse_expr_sym h,
    fun s h1 h2 => try_parse_expr_atom h1 h2, ?_⟩
  intro s n args before na hf hc hsplit hnb hna
  exact try_parse_expr_panic_norsplit hf hc
    (splitOnceChar_some_iff.mpr ⟨hsplit, hnb⟩)
    (rsplitOnceChar_none_iff.mpr hna)

/-- Counterexample to C2 as stated: a list-literal fragment panics in
atom parsing (`todo!()`), a call form with an unmatched nested `(` panics
in expression parsing (`unwrap` of `None`), and evaluating any Call
expression panics (`todo!()`). -/
theorem claim_C2_counterexample :
    try_parse_atom ("'(a)".toList) = .panicked ∧
    try_parse_expr ("(f (x)".toList) = .panicked ∧
    (System.new.eval (.Func ("f".toList) [])).1 = .panicked :=
  ⟨rfl, rfl, rfl⟩

/-- Witness for C2 (amended): the two hypothesis-bearing conjuncts applied
at concrete inputs. -/
theorem claim_C2_witness :
    (SYM_match ("x".toList) = true ∧ try_parse_expr ("x".toList) = .ok (.Sym ("x".toList))) ∧
    (FUNC_captures ("(f (x)".toList) = some ("f".toList, "(x".toList) ∧
      try_parse_expr ("(f (x)".toList) = .panicked) :=
  ⟨⟨by decide, claim_C2.2.2.2.2.1 ("x".toList) (by decide)⟩,
   ⟨by rfl,
    claim_C2.2.2.2.2.2.2 ("(f (x)".toList) ("f".toList) ("(x".toList)
      ([] : List Char) ("x".toList) (by rfl) (by rfl) (by rfl) (by decide) (by decide)⟩⟩

/-- C3 (code bug): on the fragment `"é"` the string branch of
`try_parse_atom` takes `src.len() - 2 = 2` CHARACTERS after dropping the
opening quote, because `src.len()` counts BYTES (`é` is two bytes); the
parsed value is the interior plus the closing quote, not the interior
`é` the claim requires. -/
theorem claim_C3 :
    try_parse_atom (('"' : Char) :: 'é' :: '"' :: []) = .ok (.Str ('é' :: '"' :: [])) ∧
    ('é' :: '"' :: []) ≠ ('é' :: []) :=
  ⟨rfl, by decide⟩

/-- C4: `set` inserts only if the name is absent; on an already-bound name
it returns a conflict error carrying the symbol and leaves the state
unchanged; in particular after binding x to 1, binding x to 2 fails and x
still maps to 1. -/
theorem claim_C4 :
    (∀ (sys : System) (sym : List Char) (v : Val), sys.containsName sym = true →
      sys.set sym v = (.err (.CannotReassign sym), sys)) ∧
    (∀ (sys : System) (sym : List Char) (v : Val), sys.containsName sym = false →
      sys.set sym v = (.ok (), ⟨sys.mappings ++ [(sym, v)]⟩)) ∧
    ((System.new.set ("x".toList) (.Int 1)).2.set ("x".toList) (.Int 2)).1 =
      .err (.CannotReassign ("x".toList)) ∧
    (((System.new.set ("x".toList) (.Int 1)).2.set ("x".toList) (.Int 2)).2.get ("x".toList) =
      .ok (.Int 1)) :=
  ⟨fun _ _ v h => set_present v h, fun _ _ v h => set_absent v h, rfl, rfl⟩

/-- Witness for C4: the conflict branch applied to a concrete environment
in which `x` is already bound. -/
theorem claim_C4_witness :
    ((System.new.set ("x".toList) (.Int 1)).2.containsName ("x".toList) = true) ∧
    ((System.new.set ("x".toList) (.Int 1)).2.set ("x".toList) (.Int 2) =
      (.err (.CannotReassign ("x".toList)), (System.new.set ("x".toList) (.Int 1)).2)) :=
  ⟨rfl, claim_C4.1 _ ("x".toList) (.Int 2) rfl⟩

/-- C5: write-once invariant — starting from the empty environment, once
a lookup of `n` returns `v`, it still returns `v` after ANY further
sequence of bind / lookup / evaluate operations: no rebinding, no
unbinding. -/
theorem claim_C5 :
    ∀ (ops1 ops2 : List Op) (n : List Char) (v : Val),
      (System.new.runOps ops1).get n = .ok v →
      (System.new.runOps (ops1 ++ ops2)).get n = .ok v := by
  intro ops1 ops2 n v h
  rw [runOps_append]
  rw [get_ok_iff] at h ⊢
  exact findVal_runOps_persist ops2 h

/-- Witness for C5: after binding x to 1, a later rebinding attempt,
lookup and evaluation leave the looked-up value at 1. -/
theorem claim_C5_witness :
    (System.new.runOps [Op.bind ("x".toList) (.Int 1)]).get ("x".toList) = .ok (.Int 1) ∧
    (System.new.runOps ([Op.bind ("x".toList) (.Int 1)] ++
      [Op.bind ("x".toList) (.Int 2), Op.lookup ("x".toList),
       Op.evalE (.Sym ("x".toList))])).get ("x".toList) = .ok (.Int 1) :=
  ⟨rfl, claim_C5 [Op.bind ("x".toList) (.Int 1)]
    [Op.bind ("x".toList) (.Int 2), Op.lookup ("x".toList),
     Op.evalE (.Sym ("x".toList))] ("x".toList) (.Int 1) rfl⟩

/-- C6: evaluation returns a copy of the value of an Atom for EVERY
environment without touching it, and on a Symbol delegates to `get`,
which returns the bound value when present and an undefined-name error
carrying the symbol when absent. -/
theorem claim_C6 :
    (∀ (sys : System) (v : Val), sys.eval (.Atom v) = (.ok v, sys)) ∧
    (∀ (sys : System) (s : List Char), sys.eval (.Sym s) = (sys.get s, sys)) ∧
    (∀ (sys : System) (s : List Char) (v : Val), sys.findVal s = some v →
      sys.get s = .ok v) ∧
    (∀ (sys : System) (s : List Char), sys.findVal s = none →
      sys.get s = .err (.Undefined s)) :=
  ⟨fun _ _ => rfl, fun _ _ => rfl,
   fun sys s v h => by unfold System.get; rw [h],
   fun sys s h => by unfold System.get; rw [h]⟩

/-- Witness for C6: lookup conjuncts applied to a one-binding environment
and to the empty environment. -/
theorem claim_C6_witness :
    ((System.mk [("x".toList, .Int 5)]).findVal ("x".toList) = some (.Int 5) ∧
      (System.mk [("x".toList, .Int 5)]).get ("x".toList) = .ok (.Int 5)) ∧
    (System.new.findVal ("y".toList) = none ∧
      System.new.get ("y".toList) = .err (.Undefined ("y".toList))) :=
  ⟨⟨rfl, claim_C6.2.2.1 _ ("x".toList) (.Int 5) rfl⟩,
   ⟨rfl, claim_C6.2.2.2 _ ("y".toList) rfl⟩⟩

/-- C7: a nonempty unsigned decimal-digit fragment parses to the base-10
integer when it fits in a signed 64-bit integer, and to a structured
parse error when it overflows. -/
theorem claim_C7 :
    ∀ d : List Char, d ≠ [] → d.all (·.isDigit) = true →
      (digitsVal d ≤ I64_MAX → try_parse_atom d = .ok (.Int (Int.ofNat (digitsVal d)))) ∧
      (I64_MAX < digitsVal d → try_parse_atom d = .err (.IntErr d)) := by
  intro d hne hd
  have hint : INT_match d = true := by rw [INT_match_eq_all]; exact hd
  have hi := i64_from_str_digits hne hd
  constructor
  · intro hle
    unfold try_parse_atom
    rw [if_pos hint, hi, if_pos hle]
  · intro hgt
    unfold try_parse_atom
    rw [if_pos hint, hi, if_neg (by omega)]

/-- Witness for C7: both branches at concrete inputs, `42` (fits) and
`9223372036854775808` (one past `i64::MAX`). -/
theorem claim_C7_witness :
    try_parse_atom ("42".toList) = .ok (.Int (Int.ofNat (digitsVal ("42".toList)))) ∧
    try_parse_atom ("9223372036854775808".toList) =
      .err (.IntErr ("9223372036854775808".toList)) :=
  ⟨(claim_C7 ("42".toList) (by decide) (by decide)).1 (by decide),
   (claim_C7 ("9223372036854775808".toList) (by decide) (by decide)).2 (by decide)⟩

/-- C8: for call fragments with no nested `(`, the argument text is split
at single spaces, empty tokens are discarded, and each remaining token is
parsed independently, giving the Call's arguments in token order; in
particular `(f 1 2 3)` parses to Call("f", [1, 2, 3]). -/
theorem claim_C8 :
    (∀ s n args : List Char, FUNC_captures s = some (n, args) →
      ((s.drop 1).contains '(') = false →
      try_parse_expr s = (seqOutcome ((tokenize args).map try_parse_expr)).map (.Func n)) ∧
    try_parse_expr ("(f 1 2 3)".toList) =
      .ok (.Func ("f".toList) [.Atom (.Int 1), .Atom (.Int 2), .Atom (.Int 3)]) :=
  ⟨fun _ _ _ hf hc => try_parse_expr_flat hf hc, by rfl⟩

/-- Witness for C8: the general flat-call equation applied to
`(f 1 2 3)`. -/
theorem claim_C8_witness :
    FUNC_captures ("(f 1 2 3)".toList) = some ("f".toList, "1 2 3".toList) ∧
    try_parse_expr ("(f 1 2 3)".toList) =
      (seqOutcome ((tokenize ("1 2 3".toList)).map try_parse_expr)).map
        (.Func ("f".toList)) :=
  ⟨by rfl, claim_C8.1 ("(f 1 2 3)".toList) ("f".toList) ("1 2 3".toList)
    (by rfl) (by rfl)⟩

/-- C9: a fragment of the form `.` followed by digits is accepted by the
float pattern (whose leading digit group admits the empty alternative)
and parses to a Float value, not a malformed-value error. -/
theorem claim_C9 :
    ∀ ds : List Char, ds ≠ [] → ds.all (·.isDigit) = true →
      ∃ q : Rat, try_parse_atom ('.' :: ds) = .ok (.Float q) := by
  intro ds hne hd
  have hemp : ds.isEmpty = false := by
    cases ds
    · exact absurd rfl hne
    · rfl
  have hint : INT_match ('.' :: ds) = false := INT_match_head_false _ (by decide)
  have hfl : FLOAT_match ('.' :: ds) = true := FLOAT_match_dot hne hd
  have hcond : (ds.all (·.isDigit) &&
      (!(List.isEmpty ([] : List Char)) || !ds.isEmpty)) = true := by
    rw [hd, hemp]
    rfl
  have step : f64_from_str ('.' :: ds) =
      (if (ds.all (·.isDigit) && (!(List.isEmpty ([] : List Char)) || !ds.isEmpty)) = true
       then some (((digitsVal ([] : List Char) : Int) : Rat) +
         ((digitsVal ds : Int) : Rat) / ((10 : Rat) ^ ds.length))
       else none) := rfl
  refine ⟨(((digitsVal ([] : List Char) : Int) : Rat) +
    ((digitsVal ds : Int) : Rat) / ((10 : Rat) ^ ds.length)), ?_⟩
  unfold try_parse_atom
  rw [hint, hfl]
  simp only [Bool.false_eq_true, if_false, if_true]
  rw [step, if_pos hcond]

/-- Witness for C9: the fragment `.5` parses to a Float. -/
theorem claim_C9_witness :
    (['5'] : List Char) ≠ [] ∧ ∃ q : Rat, try_parse_atom ('.' :: ['5']) = .ok (.Float q) :=
  ⟨by decide, claim_C9 ['5'] (by decide) (by decide)⟩

/-- C10: frame property — evaluating an Atom or a Symbol returns the
environment unchanged, and a successful `set` of a fresh name adds
exactly that binding, every other name keeping its previous lookup
result. -/
theorem claim_C10 :
    (∀ (sys : System) (v : Val), (sys.eval (.Atom v)).2 = sys) ∧
    (∀ (sys : System) (s : List Char), (sys.eval (.Sym s)).2 = sys) ∧
    (∀ (sys sysP : System) (sym : List Char) (v : Val),
      sys.set sym v = (.ok (), sysP) →
      sysP.findVal sym = some v ∧ ∀ m, m ≠ sym → sysP.findVal m = sys.findVal m) := by
  refine ⟨fun _ _ => rfl, fun _ _ => rfl, ?_⟩
  intro sys sysP sym v h
  cases hc : sys.containsName sym with
  | true =>
    rw [set_present v hc] at h
    cases (Prod.mk.injEq _ _ _ _ ▸ h).1
  | false =>
    rw [set_absent v hc] at h
    have hP : (⟨sys.mappings ++ [(sym, v)]⟩ : System) = sysP :=
      (Prod.mk.injEq _ _ _ _ ▸ h).2
    subst hP
    exact ⟨findVal_append_new v hc, fun m hm => findVal_append_other v hm⟩

/-- Witness for C10: a successful bind of `x` into the one-binding
environment `{y ↦ 2}` yields `x ↦ 1` and leaves `y`'s lookup unchanged. -/
theorem claim_C10_witness :
    (System.mk [("y".toList, .Int 2)]).set ("x".toList) (.Int 1) =
      (.ok (), System.mk [("y".toList, .Int 2), ("x".toList, .Int 1)]) ∧
    ((System.mk [("y".toList, .Int 2), ("x".toList, .Int 1)]).findVal ("x".toList) =
      some (.Int 1) ∧
     ∀ m, m ≠ "x".toList →
      (System.mk [("y".toList, .Int 2), ("x".toList, .Int 1)]).findVal m =
        (System.mk [("y".toList, .Int 2)]).findVal m) :=
  ⟨rfl, claim_C10.2.2 (System.mk [("y".toList, .Int 2)])
    (System.mk [("y".toList, .Int 2), ("x".toList, .Int 1)])
    ("x".toList) (.Int 1) rfl⟩

end Alisp
